import Mathlib

/-!
Verification of the markdown ⇄ rich-document converter.

Strings are modelled as lists of characters (`Str`); the caller-supplied
image mapping (`AssetMap`) is modelled as an association list in insertion
order, matching the iteration order of a JS `Map`.
-/

abbrev Str := List Char

def str (s : String) : Str := s.data

abbrev AssetMap (α : Type) := List (Str × α)

/-- `s.endsWith t` of the source. -/
def strEndsWith (s t : Str) : Bool := t.isSuffixOf s

/-- `s.startsWith t`. -/
def strStartsWithB (s t : Str) : Bool := t.isPrefixOf s

/-- `Map.has` over the association-list model. -/
def mapHas {α : Type} (m : AssetMap α) (k : Str) : Bool := m.any (fun p => p.1 == k)

/-- `Map.get` over the association-list model. -/
def mapGet {α : Type} (m : AssetMap α) (k : Str) : Option α :=
  (m.find? (fun p => p.1 == k)).map (fun p => p.2)

/-- `href.replace(/^\.?\//, '')`: strip one leading `./` or `/`. -/
def normalizeHref (href : Str) : Str :=
  if strStartsWithB href (str "./") then href.drop 2
  else if strStartsWithB href (str "/") then href.drop 1
  else href

/-- `s.split(sep)` for a single-character separator, as in JS. -/
def splitOnChar (c : Char) : Str → List Str
  | [] => [[]]
  | d :: rest =>
    let r := splitOnChar c rest
    if d = c then [] :: r
    else
      match r with
      | [] => [[d]]
      | h :: t => (d :: h) :: t

/-- `href.split('/').pop() || ''`: the basename of a path. -/
def baseName (href : Str) : Str := ((splitOnChar '/' href).getLast?).getD []

/-- The 4-step asset resolver `resolveImage` from the compiler:
exact key, normalized key, basename key, then a scan for a key ending
with `href` or its normalized form. -/
def resolveImage {α : Type} (m : AssetMap α) (href : Str) : Option α :=
  if mapHas m href then mapGet m href
  else
    let normalized := normalizeHref href
    if mapHas m normalized then mapGet m normalized
    else
      let fileName := baseName href
      if mapHas m fileName then mapGet m fileName
      else
        match m.find? (fun p => strEndsWith p.1 href || strEndsWith p.1 normalized) with
        | some p => some p.2
        | none => none

/-- Whether resolution step `i` (1–4) of `resolveImage` has a match. -/
def stepMatches {α : Type} (m : AssetMap α) (href : Str) : Nat → Bool
  | 1 => mapHas m href
  | 2 => mapHas m (normalizeHref href)
  | 3 => mapHas m (baseName href)
  | 4 => m.any (fun p => strEndsWith p.1 href || strEndsWith p.1 (normalizeHref href))
  | _ => false

/-- The payload that resolution step `i` alone would find. -/
def stepResult {α : Type} (m : AssetMap α) (href : Str) : Nat → Option α
  | 1 => mapGet m href
  | 2 => mapGet m (normalizeHref href)
  | 3 => mapGet m (baseName href)
  | 4 => (m.find? (fun p => strEndsWith p.1 href || strEndsWith p.1 (normalizeHref href))).map
           (fun p => p.2)
  | _ => none

/-- The step through which `resolveImage` resolves, if any. -/
def resolveStep {α : Type} (m : AssetMap α) (href : Str) : Option Nat :=
  if mapHas m href then some 1
  else if mapHas m (normalizeHref href) then some 2
  else if mapHas m (baseName href) then some 3
  else if m.any (fun p => strEndsWith p.1 href || strEndsWith p.1 (normalizeHref href)) then some 4
  else none

theorem resolveImage_step4 {α : Type} (m : AssetMap α) (href : Str)
    (h1 : mapHas m href = false)
    (h2 : mapHas m (normalizeHref href) = false)
    (h3 : mapHas m (baseName href) = false) :
    resolveImage m href =
      (m.find? (fun p => strEndsWith p.1 href || strEndsWith p.1 (normalizeHref href))).map
        (fun p => p.2) := by
  simp only [resolveImage, h1, h2, h3, Bool.false_eq_true, if_false]
  cases m.find? (fun p => strEndsWith p.1 href || strEndsWith p.1 (normalizeHref href)) <;> rfl

/-- C1 counterexample: for href `photo.png` against the map
`{assets/2023/photo.png ↦ bytes}` the basename step (step 3) does not
match — the basename is not a key of the map — and resolution in fact
succeeds through the fallback suffix scan (step 4). -/
theorem basename_scenario_counterexample :
    stepMatches [(str "assets/2023/photo.png", (0 : Nat))] (str "photo.png") 3 = false ∧
    resolveStep [(str "assets/2023/photo.png", (0 : Nat))] (str "photo.png") = some 4 ∧
    resolveImage [(str "assets/2023/photo.png", (0 : Nat))] (str "photo.png") = some 0 := by
  decide

/-- C1 (amended): whenever step `i` of the resolution cascade matches and no
earlier step does, `resolveImage` resolves through step `i` and returns the
payload that step `i` finds (exact > normalized > basename > suffix-scan).
The spec's particular scenario is amended: href `photo.png` against
`{assets/2023/photo.png ↦ bytes}` resolves via the suffix scan, not the
basename step. -/
theorem resolve_precedence {α : Type} (m : AssetMap α) (href : Str) (i : Nat)
    (hi : stepMatches m href i = true)
    (hmin : ∀ j, j < i → stepMatches m href j = false) :
    resolveStep m href = some i ∧ resolveImage m href = stepResult m href i := by
  rcases i with _ | _ | _ | _ | _ | n
  · simp [stepMatches] at hi
  · simp only [stepMatches] at hi
    constructor
    · simp [resolveStep, hi]
    · simp [resolveImage, stepResult, hi]
  · have h1 : stepMatches m href 1 = false := hmin 1 (by omega)
    simp only [stepMatches] at hi h1
    constructor
    · simp [resolveStep, hi, h1]
    · simp [resolveImage, stepResult, hi, h1]
  · have h1 : stepMatches m href 1 = false := hmin 1 (by omega)
    have h2 : stepMatches m href 2 = false := hmin 2 (by omega)
    simp only [stepMatches] at hi h1 h2
    constructor
    · simp [resolveStep, hi, h1, h2]
    · simp [resolveImage, stepResult, hi, h1, h2]
  · have h1 : stepMatches m href 1 = false := hmin 1 (by omega)
    have h2 : stepMatches m href 2 = false := hmin 2 (by omega)
    have h3 : stepMatches m href 3 = false := hmin 3 (by omega)
    simp only [stepMatches] at hi h1 h2 h3
    constructor
    · simp [resolveStep, hi, h1, h2, h3]
    · rw [resolveImage_step4 m href h1 h2 h3]
      rw [List.any_eq_true] at hi
      obtain ⟨p, hp, hpred⟩ := hi
      cases hf : m.find? (fun p => strEndsWith p.1 href || strEndsWith p.1 (normalizeHref href)) with
      | none =>
        exact absurd hpred (by simpa using List.find?_eq_none.mp hf p hp)
      | some q =>
        simp [stepResult, hf]
  · simp [stepMatches] at hi

/-- Witness for `resolve_precedence` at a concrete exact match. -/
theorem resolve_precedence_witness :
    resolveStep [(str "a.png", (0 : Nat))] (str "a.png") = some 1 ∧
    resolveImage [(str "a.png", (0 : Nat))] (str "a.png") =
      stepResult [(str "a.png", (0 : Nat))] (str "a.png") 1 :=
  resolve_precedence _ _ 1 (by decide) (by decide)

/-- C3 counterexample: the map `{k ↦ "xphoto.png"}` has a value that, as a
string, ends with the href `photo.png`, yet resolution fails: the fallback
scan tests the key, not the value. -/
theorem suffix_scan_checks_key_not_value :
    strEndsWith (str "xphoto.png") (str "photo.png") = true ∧
    resolveImage [(str "k", str "xphoto.png")] (str "photo.png") = none := by
  decide

theorem find?_first {α : Type} (p : α → Bool) :
    ∀ (l : List α) (a : α), l.find? p = some a →
      ∃ l1 l2, l = l1 ++ a :: l2 ∧ p a = true ∧ ∀ b ∈ l1, p b = false := by
  intro l
  induction l with
  | nil => intro a h; simp at h
  | cons x t ih =>
    intro a h
    by_cases hx : p x = true
    · rw [List.find?_cons_of_pos t hx] at h
      cases h
      exact ⟨[], t, rfl, hx, by simp⟩
    · rw [List.find?_cons_of_neg t (by simpa using hx)] at h
      obtain ⟨l1, l2, heq, hpa, hfree⟩ := ih a h
      refine ⟨x :: l1, l2, by simp [heq], hpa, ?_⟩
      intro b hb
      rcases List.mem_cons.mp hb with rfl | hb2
      · simpa using hx
      · exact hfree b hb2

/-- C3 (amended): when steps 1–3 fail, the fallback scan succeeds exactly
when some key of the map — not its value — ends with `href` or with its
normalized form, and the returned payload is the value of the first key
in iteration order satisfying that test. -/
theorem suffix_scan_amended {α : Type} (m : AssetMap α) (href : Str)
    (h1 : mapHas m href = false) (h2 : mapHas m (normalizeHref href) = false)
    (h3 : mapHas m (baseName href) = false) :
    ((resolveImage m href).isSome =
      m.any (fun p => strEndsWith p.1 href || strEndsWith p.1 (normalizeHref href))) ∧
    (∀ v, resolveImage m href = some v →
      ∃ m1 p m2, m = m1 ++ p :: m2 ∧
        (strEndsWith p.1 href || strEndsWith p.1 (normalizeHref href)) = true ∧ p.2 = v ∧
        ∀ q ∈ m1,
          (strEndsWith q.1 href || strEndsWith q.1 (normalizeHref href)) = false) := by
  rw [resolveImage_step4 m href h1 h2 h3]
  cases hf : m.find? (fun p => strEndsWith p.1 href || strEndsWith p.1 (normalizeHref href)) with
  | none =>
    constructor
    · have := List.find?_eq_none.mp hf
      simp only [Option.map_none', Option.isSome_none]
      rw [eq_comm, List.any_eq_false]
      intro p hp
      simpa using this p hp
    · intro v hv
      simp at hv
  | some q =>
    have hq : q ∈ m := List.mem_of_find?_eq_some hf
    have hpred : (strEndsWith q.1 href || strEndsWith q.1 (normalizeHref href)) = true := by
      simpa using List.find?_some hf
    constructor
    · simp only [Option.map_some', Option.isSome_some]
      rw [eq_comm, List.any_eq_true]
      exact ⟨q, hq, hpred⟩
    · intro v hv
      simp only [Option.map_some', Option.some.injEq] at hv
      obtain ⟨m1, m2, heq, hqa, hfree⟩ := find?_first _ m q hf
      refine ⟨m1, q, m2, heq, by simpa using hqa, hv, ?_⟩
      intro r hr
      simpa using hfree r hr

/-- Witness for `suffix_scan_amended` at a concrete two-entry map whose
keys both end with the href: the first one supplies the payload. -/
theorem suffix_scan_amended_witness :
    ((resolveImage [(str "dir/b/a.png", (0 : Nat)), (str "x/b/a.png", 1)]
        (str "b/a.png")).isSome =
      List.any [(str "dir/b/a.png", (0 : Nat)), (str "x/b/a.png", 1)]
        (fun p => strEndsWith p.1 (str "b/a.png") ||
          strEndsWith p.1 (normalizeHref (str "b/a.png")))) ∧
    (∀ v, resolveImage [(str "dir/b/a.png", (0 : Nat)), (str "x/b/a.png", 1)]
        (str "b/a.png") = some v →
      ∃ m1 p m2, [(str "dir/b/a.png", (0 : Nat)), (str "x/b/a.png", 1)] = m1 ++ p :: m2 ∧
        (strEndsWith p.1 (str "b/a.png") ||
          strEndsWith p.1 (normalizeHref (str "b/a.png"))) = true ∧ p.2 = v ∧
        ∀ q ∈ m1, (strEndsWith q.1 (str "b/a.png") ||
          strEndsWith q.1 (normalizeHref (str "b/a.png"))) = false) :=
  suffix_scan_amended _ _ (by decide) (by decide) (by decide)

/-! The markdown compiler (`convertToDocx`, 4-step-resolver variant). -/

inductive Level where
  | info | success | warning | error
deriving DecidableEq, Repr

structure LogEntry where
  msg : Str
  level : Level
deriving DecidableEq, Repr

/-- A paragraph child as the compiler builds it: an `ImageRun`, a styled
`TextRun` (text, bold, italic, font, size, color, break count) or an
`ExternalHyperlink`. -/
inductive DocxChild (α : Type) where
  | imageRun (data : α) (width height : Nat)
  | textRun (text : Str) (bold italic : Bool) (font : Option Str) (size : Option Nat)
      (color : Option Str) (brk : Nat)
  | hyperlink (text href : Str)
deriving DecidableEq

/-- Inline tokens of a paragraph, as produced by the external lexer. -/
inductive InlineTok where
  | image (href : Str)
  | link (text href : Str)
  | strong (text : Str)
  | em (text : Str)
  | codespan (text : Str)
  | textTok (text : Str)
  | br
  | otherInline
deriving DecidableEq

/-- One inline token of a paragraph → the children it pushes and the log
entries it emits (the `subToken` dispatch of `convertToDocx`). -/
def compileInline {α : Type} (m : AssetMap α) : InlineTok → List (DocxChild α) × List LogEntry
  | .image href =>
    match resolveImage m href with
    | some imgData =>
      ([.imageRun imgData 500 300], [⟨str "Matched asset: " ++ href, .success⟩])
    | none =>
      ([.textRun (str "\n[IMAGE NOT LOADED: " ++ href ++ str "]\n") true false none none
          (some (str "FF0000")) 0],
       [⟨str "Image link broken or missing: " ++ href, .warning⟩])
  | .link t href => ([.hyperlink t href], [])
  | .strong t => ([.textRun t true false none none none 0], [])
  | .em t => ([.textRun t false true none none none 0], [])
  | .codespan t =>
    ([.textRun t false false (some (str "Consolas")) none (some (str "D11111")) 0], [])
  | .textTok t => ([.textRun t false false none none none 0], [])
  | .br => ([.textRun [] false false none none none 1], [])
  | .otherInline => ([], [])

/-- The paragraph loop over its inline tokens, accumulating children and
log entries in order. -/
def compileChildren {α : Type} (m : AssetMap α) : List InlineTok → List (DocxChild α) × List LogEntry
  | [] => ([], [])
  | t :: rest =>
    let a := compileInline m t
    let b := compileChildren m rest
    (a.1 ++ b.1, a.2 ++ b.2)

/-- C2: an unresolved inline image never aborts compilation: it yields a
single bold red marker text run whose text contains the literal href,
plus one warning log entry; the rest of the paragraph is still compiled;
and an `imageRun` is only ever produced from a successfully resolved
image token. -/
theorem missing_image_marker {α : Type} (m : AssetMap α) (href : Str)
    (h : resolveImage m href = none) :
    (compileInline m (.image href)).1 =
      [DocxChild.textRun (str "\n[IMAGE NOT LOADED: " ++ href ++ str "]\n") true false none none
        (some (str "FF0000")) 0] ∧
    (∃ x y, str "\n[IMAGE NOT LOADED: " ++ href ++ str "]\n" = x ++ href ++ y) ∧
    (compileInline m (.image href)).2 =
      [⟨str "Image link broken or missing: " ++ href, Level.warning⟩] ∧
    (∀ rest, compileChildren m (.image href :: rest) =
      ((compileInline m (.image href)).1 ++ (compileChildren m rest).1,
       (compileInline m (.image href)).2 ++ (compileChildren m rest).2)) ∧
    (∀ tok imgData w ht, DocxChild.imageRun imgData w ht ∈ (compileInline m tok).1 →
      ∃ h2, tok = InlineTok.image h2 ∧ resolveImage m h2 = some imgData) := by
  refine ⟨by simp [compileInline, h], ⟨str "\n[IMAGE NOT LOADED: ", str "]\n", by simp⟩,
    by simp [compileInline, h], fun rest => rfl, ?_⟩
  intro tok imgData w ht hmem
  cases tok with
  | image h2 =>
    cases hres : resolveImage m h2 with
    | some v =>
      simp only [compileInline, hres, List.mem_singleton] at hmem
      cases hmem
      exact ⟨h2, rfl, hres⟩
    | none => simp [compileInline, hres] at hmem
  | link t href2 => simp [compileInline] at hmem
  | strong t => simp [compileInline] at hmem
  | em t => simp [compileInline] at hmem
  | codespan t => simp [compileInline] at hmem
  | textTok t => simp [compileInline] at hmem
  | br => simp [compileInline] at hmem
  | otherInline => simp [compileInline] at hmem

/-- Witness for `missing_image_marker` against an empty asset map. -/
theorem missing_image_marker_witness :
    (compileInline ([] : AssetMap Nat) (.image (str "a.png"))).1 =
      [DocxChild.textRun (str "\n[IMAGE NOT LOADED: " ++ str "a.png" ++ str "]\n") true false
        none none (some (str "FF0000")) 0] ∧
    (∃ x y, str "\n[IMAGE NOT LOADED: " ++ str "a.png" ++ str "]\n" = x ++ str "a.png" ++ y) ∧
    (compileInline ([] : AssetMap Nat) (.image (str "a.png"))).2 =
      [⟨str "Image link broken or missing: " ++ str "a.png", Level.warning⟩] ∧
    (∀ rest, compileChildren ([] : AssetMap Nat) (.image (str "a.png") :: rest) =
      ((compileInline ([] : AssetMap Nat) (.image (str "a.png"))).1 ++
        (compileChildren ([] : AssetMap Nat) rest).1,
       (compileInline ([] : AssetMap Nat) (.image (str "a.png"))).2 ++
        (compileChildren ([] : AssetMap Nat) rest).2)) ∧
    (∀ tok imgData w ht,
      DocxChild.imageRun imgData w ht ∈ (compileInline ([] : AssetMap Nat) tok).1 →
      ∃ h2, tok = InlineTok.image h2 ∧ resolveImage ([] : AssetMap Nat) h2 = some imgData) :=
  missing_image_marker [] (str "a.png") (by decide)

/-- C10: a successfully resolved image is emitted as an `imageRun` with the
fixed transformation width 500 and height 300, whatever the payload. -/
theorem image_run_fixed_transformation {α : Type} (m : AssetMap α) (href : Str) (imgData : α)
    (h : resolveImage m href = some imgData) :
    (compileInline m (.image href)).1 = [DocxChild.imageRun imgData 500 300] ∧
    (compileInline m (.image href)).2 = [⟨str "Matched asset: " ++ href, Level.success⟩] := by
  constructor <;> simp [compileInline, h]

/-- Witness for `image_run_fixed_transformation` at a concrete map. -/
theorem image_run_fixed_transformation_witness :
    (compileInline [(str "a.png", (42 : Nat))] (.image (str "a.png"))).1 =
      [DocxChild.imageRun 42 500 300] ∧
    (compileInline [(str "a.png", (42 : Nat))] (.image (str "a.png"))).2 =
      [⟨str "Matched asset: " ++ str "a.png", Level.success⟩] :=
  image_run_fixed_transformation _ _ 42 (by decide)

/-- Block tokens of the markdown lexer, as the compiler dispatches on them. -/
inductive Token where
  | heading (depth : Nat) (text : Str)
  | paragraph (tokens : Option (List InlineTok)) (text : Str)
  | listTok (items : List Str)
  | code (text : Str)
  | hr
  | other (text : Option Str)
deriving DecidableEq

/-- The heading branch: depth 1/2/3 map to levels 1/2/3, anything else to
level 4 (`HeadingLevel.HEADING_4`). -/
def headingLevel (depth : Nat) : Nat :=
  if depth = 1 then 1 else if depth = 2 then 2 else if depth = 3 then 3 else 4

/-- The paragraphs the compiler pushes onto `sections`. -/
inductive Block (α : Type) where
  | headingPara (text : Str) (level : Nat) (spacingBefore spacingAfter : Nat)
  | para (children : List (DocxChild α)) (spacingAfter : Nat)
  | bulletPara (text : Str) (level : Nat) (spacingAfter : Nat)
  | codePara (children : List (DocxChild α))
  | hrPara
  | defaultPara (text : Str)
deriving DecidableEq

/-- The code-block branch: one run per line, `Consolas` size 18, with a
leading line break on every line but the first (`index > 0 ? 1 : 0`). -/
def codeRunsAux {α : Type} (idx : Nat) : List Str → List (DocxChild α)
  | [] => []
  | line :: rest =>
    DocxChild.textRun line false false (some (str "Consolas")) (some 18) none
      (if idx > 0 then 1 else 0) :: codeRunsAux (idx + 1) rest

def codeRuns {α : Type} (text : Str) : List (DocxChild α) :=
  codeRunsAux 0 (splitOnChar '\n' text)

/-- One lexer token → the blocks it pushes and the log entries it emits
(the `switch (token.type)` of `convertToDocx`). -/
def compileToken {α : Type} (m : AssetMap α) : Token → List (Block α) × List LogEntry
  | .heading d t => ([.headingPara t (headingLevel d) 400 200], [])
  | .paragraph toks t =>
    match toks with
    | some ts =>
      let r := compileChildren m ts
      ([.para r.1 150], r.2)
    | none => ([.para [DocxChild.textRun t false false none none none 0] 150], [])
  | .listTok items => (items.map (fun it => .bulletPara it 0 100), [])
  | .code t => ([.codePara (codeRuns t)], [])
  | .hr => ([.hrPara], [])
  | .other t =>
    match t with
    | some txt => if txt = [] then ([], []) else ([.defaultPara txt], [])
    | none => ([], [])

/-- The whole token loop of `convertToDocx`: initial log, per-token blocks
and logs in order, final log. -/
def convertToDocx {α : Type} (m : AssetMap α) (tokens : List Token) :
    List (Block α) × List LogEntry :=
  let init : List LogEntry := [⟨str "Initializing DOCX engine...", .info⟩]
  let step := tokens.foldl
    (fun acc tok =>
      let r := compileToken m tok
      (acc.1 ++ r.1, acc.2 ++ r.2))
    (([], []) : List (Block α) × List LogEntry)
  (step.1, init ++ step.2 ++ [⟨str "Finalizing DOCX binary data...", .info⟩])

/-- C8: a heading token of depth greater than 4 compiles to exactly the
block produced for depth 4 (the level is clamped to the supported range). -/
theorem heading_clamp {α : Type} (m : AssetMap α) (d : Nat) (t : Str) (hd : d > 4) :
    compileToken m (Token.heading d t) = compileToken m (Token.heading 4 t) := by
  have h1 : d ≠ 1 := by omega
  have h2 : d ≠ 2 := by omega
  have h3 : d ≠ 3 := by omega
  simp [compileToken, headingLevel, h1, h2, h3]

/-- Witness for `heading_clamp` at depth 5. -/
theorem heading_clamp_witness :
    compileToken ([] : AssetMap Nat) (Token.heading 5 (str "T")) =
      compileToken [] (Token.heading 4 (str "T")) :=
  heading_clamp [] 5 (str "T") (by decide)

/-- The text carried by a paragraph child. -/
def textOf {α : Type} : DocxChild α → Str
  | .textRun t _ _ _ _ _ _ => t
  | .hyperlink t _ => t
  | .imageRun _ _ _ => []

/-- The explicit line-break count carried by a paragraph child. -/
def brkOf {α : Type} : DocxChild α → Nat
  | .textRun _ _ _ _ _ _ b => b
  | _ => 0

theorem splitOnChar_ne_nil (c : Char) (s : Str) : splitOnChar c s ≠ [] := by
  induction s with
  | nil => simp [splitOnChar]
  | cons d rest ih =>
    simp only [splitOnChar]
    split
    · simp
    · split <;> simp

theorem codeRunsAux_map_textOf {α : Type} (l : List Str) :
    ∀ idx, ((codeRunsAux idx l : List (DocxChild α)).map textOf) = l := by
  induction l with
  | nil => intro idx; rfl
  | cons h t ih => intro idx; simp [codeRunsAux, textOf, ih]

theorem codeRunsAux_map_brkOf {α : Type} (l : List Str) :
    ∀ idx, 0 < idx →
      ((codeRunsAux idx l : List (DocxChild α)).map brkOf) = List.replicate l.length 1 := by
  induction l with
  | nil => intro idx _; rfl
  | cons h t ih =>
    intro idx hidx
    simp only [codeRunsAux, List.map_cons, brkOf, ih (idx + 1) (by omega), List.length_cons,
      List.replicate_succ, List.cons.injEq]
    exact ⟨if_pos hidx, trivial⟩

theorem replicate_one_sum : ∀ n : Nat, (List.replicate n 1).sum = n := by
  intro n
  induction n with
  | zero => rfl
  | succ k ih =>
    simp [List.replicate_succ, ih]
    omega

/-- C4: a code token with k lines compiles to a code paragraph holding
exactly the k lines as text runs in source order, whose break counts are
0 for the first line and 1 for each of the k−1 subsequent lines, so the
total number of explicit line breaks is k−1. -/
theorem code_block_runs {α : Type} (m : AssetMap α) (text : Str) :
    compileToken m (Token.code text) = ([Block.codePara (codeRuns text)], []) ∧
    ((codeRuns text : List (DocxChild α)).map textOf = splitOnChar '\n' text) ∧
    ((codeRuns text : List (DocxChild α)).map brkOf =
      0 :: List.replicate ((splitOnChar '\n' text).length - 1) 1) ∧
    ((codeRuns text : List (DocxChild α)).map brkOf).sum =
      (splitOnChar '\n' text).length - 1 := by
  have hbrk : (codeRuns text : List (DocxChild α)).map brkOf =
      0 :: List.replicate ((splitOnChar '\n' text).length - 1) 1 := by
    unfold codeRuns
    cases hs : splitOnChar '\n' text with
    | nil => exact absurd hs (splitOnChar_ne_nil _ _)
    | cons h t =>
      simp only [codeRunsAux, List.map_cons, brkOf, codeRunsAux_map_brkOf t 1 (by omega),
        List.length_cons, Nat.add_sub_cancel, List.cons.injEq]
      exact ⟨rfl, trivial⟩
  refine ⟨rfl, codeRunsAux_map_textOf _ 0, hbrk, ?_⟩
  rw [hbrk]
  simp [replicate_one_sum]

/-! The document extractor (`convertDocxToMd`). -/

def natToStr (n : Nat) : Str := (toString n).data

/-- The image interception of the extractor: each embedded image, in
document order, is assigned `const id = imageCounter++` and one success
log entry; the counter is a local of the extraction call and starts at 1. -/
def interceptImages {β : Type} (imageCounter : Nat) :
    List β → List (Nat × β) × List LogEntry
  | [] => ([], [])
  | img :: rest =>
    let id := imageCounter
    let r := interceptImages (imageCounter + 1) rest
    ((id, img) :: r.1, ⟨str "Asset detected: Image #" ++ natToStr id, .success⟩ :: r.2)

/-- One extraction call runs the interception with a fresh counter at 1. -/
def extractionAssignments {β : Type} (imgs : List β) : List (Nat × β) × List LogEntry :=
  interceptImages 1 imgs

theorem interceptImages_spec {β : Type} (imgs : List β) :
    ∀ k, ((interceptImages k imgs).1.map Prod.fst = List.range' k imgs.length) ∧
      ((interceptImages k imgs).2 = (List.range' k imgs.length).map
        (fun i => ⟨str "Asset detected: Image #" ++ natToStr i, Level.success⟩)) := by
  induction imgs with
  | nil => intro k; exact ⟨rfl, rfl⟩
  | cons h t ih =>
    intro k
    rw [List.length_cons, List.range'_succ k t.length 1]
    exact ⟨by simp [interceptImages, (ih (k + 1)).1],
      by simp [interceptImages, (ih (k + 1)).2]⟩

/-- C6: within one extraction call the assigned placeholder numbers are
exactly 1, 2, …, k in encounter order — strictly increasing and starting
at 1 — with one log entry per assignment; the embedding is a pure
function of the image list alone, so a second call on the same input
repeats the identical numbering from 1 (no cross-call state). -/
theorem placeholder_numbering {β : Type} (imgs : List β) :
    ((extractionAssignments imgs).1.map Prod.fst = List.range' 1 imgs.length) ∧
    List.Pairwise (· < ·) ((extractionAssignments imgs).1.map Prod.fst) ∧
    ((extractionAssignments imgs).2 = (List.range' 1 imgs.length).map
      (fun i => ⟨str "Asset detected: Image #" ++ natToStr i, Level.success⟩)) ∧
    ((extractionAssignments imgs).2.length = imgs.length) := by
  obtain ⟨h1, h2⟩ := interceptImages_spec imgs 1
  refine ⟨h1, ?_, h2, ?_⟩
  · rw [show (extractionAssignments imgs).1 = (interceptImages 1 imgs).1 from rfl, h1]
    exact List.pairwise_lt_range' ..
  · rw [show (extractionAssignments imgs).2 = (interceptImages 1 imgs).2 from rfl, h2]
    simp

/-- One global pass of `markdown.replace(/\\([targets])/g, '$1')`: scanning
left to right, a backslash immediately followed by a target character is
replaced by that character and scanning resumes after the pair. -/
def replacePairs (targets : List Char) : Str → Str
  | [] => []
  | [c] => [c]
  | c1 :: c2 :: rest =>
    if c1 = '\\' ∧ c2 ∈ targets then c2 :: replacePairs targets rest
    else c1 :: replacePairs targets (c2 :: rest)

theorem replacePairs_pair (t : List Char) (c1 c2 : Char) (rest : Str) :
    replacePairs t (c1 :: c2 :: rest) =
      if c1 = '\\' ∧ c2 ∈ t then c2 :: replacePairs t rest
      else c1 :: replacePairs t (c2 :: rest) := rfl

theorem replacePairs_cons_ne (t : List Char) (c : Char) (hc : c ≠ '\\') (x : Str) :
    replacePairs t (c :: x) = c :: replacePairs t x := by
  cases x with
  | nil => rfl
  | cons d r => rw [replacePairs_pair, if_neg (fun h => hc h.1)]

theorem replacePairs_after_bs (t : List Char) (z : Str) :
    replacePairs t ('\\' :: z) = '\\' :: replacePairs t z ∨
      ∃ d r2, z = d :: r2 ∧ d ∈ t ∧ replacePairs t ('\\' :: z) = d :: replacePairs t r2 := by
  cases z with
  | nil => left; rfl
  | cons d r2 =>
    by_cases hd : d ∈ t
    · right
      exact ⟨d, r2, rfl, hd, by rw [replacePairs_pair, if_pos ⟨rfl, hd⟩]⟩
    · left
      rw [replacePairs_pair, if_neg (fun h => hd h.2)]

/-- Two sequential global passes over disjoint, backslash-free target sets
behave as one pass over the union. -/
theorem replacePairs_comp (t1 t2 : List Char) (h1 : '\\' ∉ t1) (h2 : '\\' ∉ t2)
    (hd : ∀ c, c ∈ t2 → c ∉ t1) :
    ∀ n s, s.length ≤ n →
      replacePairs t2 (replacePairs t1 s) = replacePairs (t1 ++ t2) s := by
  intro n
  induction n with
  | zero =>
    intro s hs
    have : s = [] := List.eq_nil_of_length_eq_zero (Nat.le_zero.mp hs)
    subst this
    rfl
  | succ n ih =>
    intro s hs
    rcases s with _ | ⟨c1, _ | ⟨c2, rest⟩⟩
    · rfl
    · rfl
    · have hlen1 : rest.length ≤ n := by
        simp only [List.length_cons] at hs
        omega
      have hlen2 : (c2 :: rest).length ≤ n := by
        simp only [List.length_cons] at hs ⊢
        omega
      by_cases hbs : c1 = '\\'
      · subst hbs
        by_cases hm1 : c2 ∈ t1
        · have hc2 : c2 ≠ '\\' := fun h => h1 (h ▸ hm1)
          rw [replacePairs_pair t1, if_pos ⟨rfl, hm1⟩, replacePairs_cons_ne t2 c2 hc2,
            replacePairs_pair (t1 ++ t2), if_pos ⟨rfl, List.mem_append_left _ hm1⟩,
            ih rest hlen1]
        · by_cases hm2 : c2 ∈ t2
          · have hc2 : c2 ≠ '\\' := fun h => h2 (h ▸ hm2)
            rw [replacePairs_pair t1, if_neg (fun h => hm1 h.2),
              replacePairs_cons_ne t1 c2 hc2, replacePairs_pair t2, if_pos ⟨rfl, hm2⟩,
              replacePairs_pair (t1 ++ t2), if_pos ⟨rfl, List.mem_append_right _ hm2⟩,
              ih rest hlen1]
          · by_cases hc2 : c2 = '\\'
            · subst hc2
              rw [replacePairs_pair t1, if_neg (fun h => hm1 h.2)]
              rcases replacePairs_after_bs t1 rest with heq | ⟨d, r2, hz, hdm, heq⟩
              · rw [heq, replacePairs_pair t2, if_neg (fun h => h2 (h.2)), ← heq,
                  ih ('\\' :: rest) hlen2, replacePairs_pair (t1 ++ t2),
                  if_neg (fun h => (by simpa using h.2 : '\\' ∈ t1 ∨ '\\' ∈ t2).elim h1 h2)]
              · subst hz
                have hd2 : d ∉ t2 := fun h => hd d h hdm
                have hdbs : d ≠ '\\' := fun h => h1 (h ▸ hdm)
                have hr2 : r2.length ≤ n := by
                  simp only [List.length_cons] at hs
                  omega
                rw [heq, replacePairs_pair t2, if_neg (fun h => hd2 h.2),
                  replacePairs_cons_ne t2 d hdbs, ih r2 hr2,
                  replacePairs_pair (t1 ++ t2),
                  if_neg (fun h => (by simpa using h.2 : '\\' ∈ t1 ∨ '\\' ∈ t2).elim h1 h2),
                  replacePairs_pair (t1 ++ t2), if_pos ⟨rfl, List.mem_append_left _ hdm⟩]
            · rw [replacePairs_pair t1, if_neg (fun h => hm1 h.2),
                replacePairs_cons_ne t1 c2 hc2, replacePairs_pair t2,
                if_neg (fun h => hm2 h.2), replacePairs_cons_ne t2 c2 hc2, ih rest hlen1,
                replacePairs_pair (t1 ++ t2),
                if_neg (fun h => (by simpa using h.2 : c2 ∈ t1 ∨ c2 ∈ t2).elim hm1 hm2),
                replacePairs_cons_ne (t1 ++ t2) c2 hc2]
      · rw [replacePairs_pair t1, if_neg (fun h => hbs h.1),
          replacePairs_cons_ne t2 c1 hbs, ih (c2 :: rest) hlen2,
          replacePairs_pair (t1 ++ t2), if_neg (fun h => hbs h.1)]

/-- Character class of `markdown.replace(/\\([_()\[\]"'])/g, '$1')`. -/
def escClass1 : List Char := ['_', '(', ')', '[', ']', '"', '\'']

/-- The extractor's escape cleanup: the three sequential global replaces
(class `[_()\[\]"']`, then `\.`, then `\-`). -/
def cleanupEscapes (s : Str) : Str :=
  replacePairs ['-'] (replacePairs ['.'] (replacePairs escClass1 s))

/-- The full punctuation set named by the claim. -/
def escapeTargets : List Char := ['_', '(', ')', '[', ']', '"', '\'', '.', '-']

/-- Modelled from the claim's words: one pass that removes a backslash
exactly when it immediately precedes a character of `escapeTargets`,
leaving every other character (and every other backslash) untouched. -/
def removeEscapesSpec : Str → Str
  | [] => []
  | [c] => [c]
  | c1 :: c2 :: rest =>
    if c1 = '\\' ∧ c2 ∈ escapeTargets then c2 :: removeEscapesSpec rest
    else c1 :: removeEscapesSpec (c2 :: rest)

theorem removeEscapesSpec_eq_replacePairs :
    ∀ n s, s.length ≤ n → removeEscapesSpec s = replacePairs escapeTargets s := by
  intro n
  induction n with
  | zero =>
    intro s hs
    have : s = [] := List.eq_nil_of_length_eq_zero (Nat.le_zero.mp hs)
    subst this
    rfl
  | succ n ih =>
    intro s hs
    rcases s with _ | ⟨c1, _ | ⟨c2, rest⟩⟩
    · rfl
    · rfl
    · simp only [List.length_cons] at hs
      show (if c1 = '\\' ∧ c2 ∈ escapeTargets then c2 :: removeEscapesSpec rest
        else c1 :: removeEscapesSpec (c2 :: rest)) = _
      rw [replacePairs_pair]
      by_cases h : c1 = '\\' ∧ c2 ∈ escapeTargets
      · rw [if_pos h, if_pos h, ih rest (by omega)]
      · rw [if_neg h, if_neg h, ih (c2 :: rest) (by simp only [List.length_cons]; omega)]

/-- C7: the three-pass escape cleanup of the extractor removes a backslash
exactly when it immediately precedes one of underscore, parentheses,
brackets, double quote, single quote, period, hyphen — equivalently it
equals the claim's single characterizing pass — and in particular
`p\_value ↦ p_value`, `print\(x\) ↦ print(x)`, while `\n` is untouched. -/
theorem escape_cleanup_exact (s : Str) :
    cleanupEscapes s = removeEscapesSpec s ∧
    cleanupEscapes (str "p\\_value") = str "p_value" ∧
    cleanupEscapes (str "print\\(x\\)") = str "print(x)" ∧
    cleanupEscapes (str "\\n") = str "\\n" := by
  refine ⟨?_, by decide, by decide, by decide⟩
  unfold cleanupEscapes
  rw [replacePairs_comp escClass1 ['.'] (by decide) (by decide) (by decide) s.length s le_rfl,
    replacePairs_comp (escClass1 ++ ['.']) ['-'] (by decide) (by decide) (by decide)
      s.length s le_rfl,
    removeEscapesSpec_eq_replacePairs s.length s le_rfl]
  rfl

/-- Strip an expected literal from the front of a string. -/
def stripLit : Str → Str → Option Str
  | [], s => some s
  | _ :: _, [] => none
  | p :: ps, c :: cs => if c = p then stripLit ps cs else none

/-- The longest leading digit run and the remainder (`\d+`, greedy). -/
def spanDigits : Str → Str × Str
  | [] => ([], [])
  | c :: cs =>
    if c.isDigit then
      let r := spanDigits cs
      (c :: r.1, r.2)
    else ([], c :: cs)

/-- Attempt the pattern `pre (\d+) post` at the head of `s`; on success
return the captured digits and the rest of the string. -/
def tryMatch (pre post s : Str) : Option (Str × Str) :=
  match stripLit pre s with
  | none => none
  | some r1 =>
    let d := spanDigits r1
    if d.1 = [] then none
    else
      match stripLit post d.2 with
      | none => none
      | some r3 => some (d.1, r3)

theorem stripLit_length : ∀ p s r, stripLit p s = some r → r.length + p.length = s.length := by
  intro p
  induction p with
  | nil =>
    intro s r h
    simp only [stripLit, Option.some.injEq] at h
    simp [← h]
  | cons a ps ih =>
    intro s r h
    cases s with
    | nil => simp [stripLit] at h
    | cons c cs =>
      simp only [stripLit] at h
      by_cases hc : c = a
      · rw [if_pos hc] at h
        have := ih cs r h
        simp only [List.length_cons]
        omega
      · rw [if_neg hc] at h
        exact absurd h (by simp)

theorem spanDigits_length :
    ∀ s : Str, (spanDigits s).1.length + (spanDigits s).2.length = s.length := by
  intro s
  induction s with
  | nil => rfl
  | cons c cs ih =>
    simp only [spanDigits]
    by_cases hc : c.isDigit
    · rw [if_pos hc]
      simp only [List.length_cons]
      omega
    · rw [if_neg hc]
      simp

theorem tryMatch_len_lt (pre post s : Str) (p : Str × Str)
    (h : tryMatch pre post s = some p) : p.2.length < s.length := by
  unfold tryMatch at h
  cases h1 : stripLit pre s with
  | none => rw [h1] at h; simp at h
  | some r1 =>
    rw [h1] at h
    simp only at h
    by_cases hds : (spanDigits r1).1 = []
    · rw [if_pos hds] at h
      simp at h
    · rw [if_neg hds] at h
      cases h2 : stripLit post (spanDigits r1).2 with
      | none => rw [h2] at h; simp at h
      | some r3 =>
        rw [h2] at h
        simp only [Option.some.injEq] at h
        have e1 := stripLit_length pre s r1 h1
        have e2 := spanDigits_length r1
        have e3 := stripLit_length post (spanDigits r1).2 r3 h2
        have e4 : (spanDigits r1).1.length ≠ 0 := by
          simpa using fun hcon => hds (List.eq_nil_of_length_eq_zero hcon)
        have : p.2 = r3 := by rw [← h]
        rw [this]
        omega

/-- One global pass of `s.replace(/pre(\d+)post/g, mk)`: scan left to
right, rewrite each non-overlapping match through `mk` applied to the
captured digits, and copy every other character. -/
def replaceScan (pre post : Str) (mk : Str → Str) (s : Str) : Str :=
  match h : tryMatch pre post s with
  | some p => mk p.1 ++ replaceScan pre post mk p.2
  | none =>
    match s with
    | [] => []
    | c :: t => c :: replaceScan pre post mk t
termination_by s.length
decreasing_by
  · exact tryMatch_len_lt pre post s p h
  · simp

theorem tryMatch_nil (pre post : Str) : tryMatch pre post [] = none := by
  cases pre with
  | nil => simp [tryMatch, stripLit, spanDigits]
  | cons a ps => simp [tryMatch, stripLit]

theorem replaceScan_eq_some (pre post : Str) (mk : Str → Str) (s : Str) (p : Str × Str)
    (h : tryMatch pre post s = some p) :
    replaceScan pre post mk s = mk p.1 ++ replaceScan pre post mk p.2 := by
  conv_lhs => rw [replaceScan]
  split
  next q hq =>
    rw [h] at hq
    cases hq
    rfl
  next hq =>
    rw [h] at hq
    cases hq

theorem replaceScan_nil (pre post : Str) (mk : Str → Str) :
    replaceScan pre post mk [] = [] := by
  conv_lhs => rw [replaceScan]
  split
  next q hq =>
    rw [tryMatch_nil] at hq
    cases hq
  next hq => rfl

theorem replaceScan_eq_cons (pre post : Str) (mk : Str → Str) (c : Char) (t : Str)
    (h : tryMatch pre post (c :: t) = none) :
    replaceScan pre post mk (c :: t) = c :: replaceScan pre post mk t := by
  conv_lhs => rw [replaceScan]
  split
  next q hq =>
    rw [h] at hq
    cases hq
  next hq => rfl

/-- If the pattern matches at no position of `s`, the pass copies `s`. -/
theorem replaceScan_no_match (pre post : Str) (mk : Str → Str) :
    ∀ n s, s.length ≤ n → (∀ i, i ≤ s.length → tryMatch pre post (s.drop i) = none) →
      replaceScan pre post mk s = s := by
  intro n
  induction n with
  | zero =>
    intro s hs _
    have : s = [] := List.eq_nil_of_length_eq_zero (Nat.le_zero.mp hs)
    subst this
    exact replaceScan_nil pre post mk
  | succ n ih =>
    intro s hs h
    cases s with
    | nil => exact replaceScan_nil pre post mk
    | cons c t =>
      rw [replaceScan_eq_cons pre post mk c t (by simpa using h 0 (by omega)),
        ih t (by simp only [List.length_cons] at hs; omega)
          (fun i hi => by
            simpa [List.drop_succ_cons] using h (i + 1)
              (by simp only [List.length_cons]; omega))]

/-- If the pattern matches right after a match-free region `x`, the pass
copies `x`, rewrites the match, and continues after it. -/
theorem replaceScan_match (pre post : Str) (mk : Str → Str) (ds rest : Str) :
    ∀ x u, tryMatch pre post u = some (ds, rest) →
      (∀ i, i < x.length → tryMatch pre post ((x ++ u).drop i) = none) →
      replaceScan pre post mk (x ++ u) = x ++ mk ds ++ replaceScan pre post mk rest := by
  intro x
  induction x with
  | nil =>
    intro u hu _
    simpa using replaceScan_eq_some pre post mk u (ds, rest) hu
  | cons c x2 ih =>
    intro u hu hx
    have h0 : tryMatch pre post (c :: (x2 ++ u)) = none := by
      simpa using hx 0 (by simp)
    rw [List.cons_append, replaceScan_eq_cons pre post mk c (x2 ++ u) h0,
      ih u hu (fun i hi => by
        simpa [List.drop_succ_cons] using hx (i + 1) (by simp only [List.length_cons]; omega))]
    simp

theorem stripLit_self_append (p z : Str) : stripLit p (p ++ z) = some z := by
  induction p with
  | nil => rfl
  | cons a ps ih => simp [stripLit, ih]

theorem spanDigits_digits_append (ds z : Str) (hds : ∀ c ∈ ds, c.isDigit = true)
    (hz : ∀ c, z.head? = some c → c.isDigit = false) :
    spanDigits (ds ++ z) = (ds, z) := by
  induction ds with
  | nil =>
    cases z with
    | nil => rfl
    | cons c r =>
      have : c.isDigit = false := hz c rfl
      simp [spanDigits, this]
  | cons d t ih =>
    have hd : d.isDigit = true := hds d (by simp)
    have ht : ∀ c ∈ t, c.isDigit = true := fun c hc => hds c (by simp [hc])
    simp [spanDigits, hd, ih ht]

/-- The pattern `pre (\d+) post` matches `pre ++ ds ++ post ++ z` exactly,
capturing `ds`, when `ds` is a nonempty digit run and `post` starts with a
non-digit. -/
theorem tryMatch_concrete (pre post z ds : Str) (hds1 : ds ≠ [])
    (hds2 : ∀ c ∈ ds, c.isDigit = true)
    (hpost : ∃ c r, post = c :: r ∧ c.isDigit = false) :
    tryMatch pre post (pre ++ (ds ++ (post ++ z))) = some (ds, z) := by
  obtain ⟨c, r, hp, hc⟩ := hpost
  have hspan : spanDigits (ds ++ (post ++ z)) = (ds, post ++ z) :=
    spanDigits_digits_append ds (post ++ z) hds2
      (fun d hd => by
        rw [hp] at hd
        simp only [List.cons_append, List.head?_cons, Option.some.injEq] at hd
        exact hd ▸ hc)
  unfold tryMatch
  rw [stripLit_self_append]
  simp only [hspan, hds1, if_false]
  rw [stripLit_self_append]

/-- Literal part of `/src="IMAGE_PATH_PLACEHOLDER_(\d+)"/g` before the digits. -/
def phAttr : Str := str "src=\"IMAGE_PATH_PLACEHOLDER_"

/-- Literal part of `/!\[\]\(IMAGE_PATH_PLACEHOLDER_(\d+)\)/g` before the digits. -/
def phImg : Str := str "![](IMAGE_PATH_PLACEHOLDER_"

/-- The replacement `![](images/figure_$1.png)`. -/
def canonicalFig (ds : Str) : Str := str "![](images/figure_" ++ ds ++ str ".png)"

/-- First placeholder rewrite (attribute form). -/
def rewriteAttr (s : Str) : Str := replaceScan phAttr (str "\"") canonicalFig s

/-- Second placeholder rewrite (markdown-image form). -/
def rewriteImgSyntax (s : Str) : Str := replaceScan phImg (str ")") canonicalFig s

/-- Post-processing step 1: both placeholder rewrites, in source order. -/
def rewritePlaceholders (s : Str) : Str := rewriteImgSyntax (rewriteAttr s)

/-- The whole post-processing of the extractor: placeholder rewrites then
escape cleanup. -/
def postProcess (s : Str) : Str := cleanupEscapes (rewritePlaceholders s)

/-- Number of positions at which `pat` occurs in `s`. -/
def countOcc (pat s : Str) : Nat :=
  ((List.range (s.length + 1)).filter (fun i => pat.isPrefixOf (s.drop i))).length

/-- If no match of the pattern starts inside `x`, the pass copies `x` and
continues on the remainder. -/
theorem replaceScan_append_free (pre post : Str) (mk : Str → Str) :
    ∀ x u, (∀ i, i < x.length → tryMatch pre post ((x ++ u).drop i) = none) →
      replaceScan pre post mk (x ++ u) = x ++ replaceScan pre post mk u := by
  intro x
  induction x with
  | nil => intro u _; rfl
  | cons c x2 ih =>
    intro u hx
    have h0 : tryMatch pre post (c :: (x2 ++ u)) = none := by
      simpa using hx 0 (by simp)
    rw [List.cons_append, replaceScan_eq_cons pre post mk c (x2 ++ u) h0,
      ih u (fun i hi => by
        simpa [List.drop_succ_cons] using hx (i + 1) (by simp only [List.length_cons]; omega))]
    rfl

/-- A placeholder occurrence at the head of the string is rewritten and
the scan continues right after it. -/
theorem replaceScan_occurrence (pre post z ds : Str) (mk : Str → Str) (hds1 : ds ≠ [])
    (hds2 : ∀ c ∈ ds, c.isDigit = true)
    (hpost : ∃ c r, post = c :: r ∧ c.isDigit = false) :
    replaceScan pre post mk (pre ++ (ds ++ (post ++ z))) =
      mk ds ++ replaceScan pre post mk z :=
  replaceScan_eq_some pre post mk _ (ds, z) (tryMatch_concrete pre post z ds hds1 hds2 hpost)

/-- One synthetic placeholder occurrence of the raw extraction, in the
attribute form or in the markdown-image form, with its number. -/
inductive PhOcc where
  | attrOcc (ds : Str)
  | imgOcc (ds : Str)
deriving DecidableEq

def dsOfOcc : PhOcc → Str
  | .attrOcc ds => ds
  | .imgOcc ds => ds

/-- The literal text of one placeholder occurrence. -/
def renderOcc : PhOcc → Str
  | .attrOcc ds => phAttr ++ (ds ++ str "\"")
  | .imgOcc ds => phImg ++ (ds ++ str ")")

/-- A raw extraction: contexts interleaved with arbitrarily many
placeholder occurrences of either form, then a final context. -/
def renderDoc : List (Str × PhOcc) → Str → Str
  | [], tail => tail
  | (x, o) :: rest, tail => x ++ (renderOcc o ++ renderDoc rest tail)

/-- The same document after the first (attribute-form) rewrite pass. -/
def renderMid : List (Str × PhOcc) → Str → Str
  | [], tail => tail
  | (x, .attrOcc ds) :: rest, tail => x ++ (canonicalFig ds ++ renderMid rest tail)
  | (x, .imgOcc ds) :: rest, tail => x ++ (renderOcc (.imgOcc ds) ++ renderMid rest tail)

/-- The document with every occurrence rewritten to the canonical path. -/
def renderRw : List (Str × PhOcc) → Str → Str
  | [], tail => tail
  | (x, o) :: rest, tail => x ++ (canonicalFig (dsOfOcc o) ++ renderRw rest tail)

/-- The attribute pattern matches nowhere but at the listed attribute
occurrences: no match starts inside a context, inside an image-form
occurrence, or in the tail. -/
def attrFree : List (Str × PhOcc) → Str → Prop
  | [], tail => ∀ i, i ≤ tail.length → tryMatch phAttr (str "\"") (tail.drop i) = none
  | (x, .attrOcc ds) :: rest, tail =>
    (∀ i, i < x.length →
      tryMatch phAttr (str "\"")
        ((renderDoc ((x, .attrOcc ds) :: rest) tail).drop i) = none) ∧
    attrFree rest tail
  | (x, .imgOcc ds) :: rest, tail =>
    (∀ i, i < (x ++ renderOcc (.imgOcc ds)).length →
      tryMatch phAttr (str "\"")
        ((renderDoc ((x, .imgOcc ds) :: rest) tail).drop i) = none) ∧
    attrFree rest tail

/-- After the first pass, the image-syntax pattern matches nowhere but at
the listed image-form occurrences: no match starts inside a context,
inside a rewritten canonical path, or in the tail. -/
def imgFree : List (Str × PhOcc) → Str → Prop
  | [], tail => ∀ i, i ≤ tail.length → tryMatch phImg (str ")") (tail.drop i) = none
  | (x, .attrOcc ds) :: rest, tail =>
    (∀ i, i < (x ++ canonicalFig ds).length →
      tryMatch phImg (str ")")
        ((renderMid ((x, .attrOcc ds) :: rest) tail).drop i) = none) ∧
    imgFree rest tail
  | (x, .imgOcc ds) :: rest, tail =>
    (∀ i, i < x.length →
      tryMatch phImg (str ")")
        ((renderMid ((x, .imgOcc ds) :: rest) tail).drop i) = none) ∧
    imgFree rest tail

/-- The first pass rewrites every attribute-form occurrence and copies
everything else, image-form occurrences included. -/
theorem rewriteAttr_doc :
    ∀ (segs : List (Str × PhOcc)) (tail : Str),
      (∀ p ∈ segs, dsOfOcc p.2 ≠ [] ∧ ∀ c ∈ dsOfOcc p.2, c.isDigit = true) →
      attrFree segs tail →
      rewriteAttr (renderDoc segs tail) = renderMid segs tail := by
  intro segs
  induction segs with
  | nil =>
    intro tail _ hfree
    exact replaceScan_no_match phAttr (str "\"") canonicalFig tail.length tail le_rfl hfree
  | cons p rest ih =>
    intro tail hds hfree
    obtain ⟨x, o⟩ := p
    cases o with
    | attrOcc ds =>
      obtain ⟨hx, hrest⟩ := hfree
      obtain ⟨hne, hdig⟩ := hds (x, PhOcc.attrOcc ds) (by simp)
      have hshape : renderDoc ((x, PhOcc.attrOcc ds) :: rest) tail =
          x ++ (phAttr ++ (ds ++ (str "\"" ++ renderDoc rest tail))) := by
        simp [renderDoc, renderOcc, List.append_assoc]
      rw [hshape] at hx
      unfold rewriteAttr
      rw [hshape,
        replaceScan_append_free phAttr (str "\"") canonicalFig x _ hx,
        replaceScan_occurrence phAttr (str "\"") (renderDoc rest tail) ds canonicalFig hne
          hdig ⟨'"', [], rfl, by decide⟩,
        show replaceScan phAttr (str "\"") canonicalFig (renderDoc rest tail) =
          renderMid rest tail from ih tail (fun q hq => hds q (by simp [hq])) hrest]
      simp [renderMid]
    | imgOcc ds =>
      obtain ⟨hx, hrest⟩ := hfree
      have hshape : renderDoc ((x, PhOcc.imgOcc ds) :: rest) tail =
          (x ++ renderOcc (PhOcc.imgOcc ds)) ++ renderDoc rest tail := by
        simp [renderDoc, List.append_assoc]
      rw [hshape] at hx
      unfold rewriteAttr
      rw [hshape,
        replaceScan_append_free phAttr (str "\"") canonicalFig
          (x ++ renderOcc (PhOcc.imgOcc ds)) _ hx,
        show replaceScan phAttr (str "\"") canonicalFig (renderDoc rest tail) =
          renderMid rest tail from ih tail (fun q hq => hds q (by simp [hq])) hrest]
      simp [renderMid, List.append_assoc]

/-- The second pass rewrites every image-form occurrence and copies
everything else, already-rewritten canonical paths included. -/
theorem rewriteImg_mid :
    ∀ (segs : List (Str × PhOcc)) (tail : Str),
      (∀ p ∈ segs, dsOfOcc p.2 ≠ [] ∧ ∀ c ∈ dsOfOcc p.2, c.isDigit = true) →
      imgFree segs tail →
      rewriteImgSyntax (renderMid segs tail) = renderRw segs tail := by
  intro segs
  induction segs with
  | nil =>
    intro tail _ hfree
    exact replaceScan_no_match phImg (str ")") canonicalFig tail.length tail le_rfl hfree
  | cons p rest ih =>
    intro tail hds hfree
    obtain ⟨x, o⟩ := p
    cases o with
    | attrOcc ds =>
      obtain ⟨hx, hrest⟩ := hfree
      have hshape : renderMid ((x, PhOcc.attrOcc ds) :: rest) tail =
          (x ++ canonicalFig ds) ++ renderMid rest tail := by
        simp [renderMid, List.append_assoc]
      rw [hshape] at hx
      unfold rewriteImgSyntax
      rw [hshape,
        replaceScan_append_free phImg (str ")") canonicalFig (x ++ canonicalFig ds) _ hx,
        show replaceScan phImg (str ")") canonicalFig (renderMid rest tail) =
          renderRw rest tail from ih tail (fun q hq => hds q (by simp [hq])) hrest]
      simp [renderRw, dsOfOcc, List.append_assoc]
    | imgOcc ds =>
      obtain ⟨hx, hrest⟩ := hfree
      obtain ⟨hne, hdig⟩ := hds (x, PhOcc.imgOcc ds) (by simp)
      have hshape : renderMid ((x, PhOcc.imgOcc ds) :: rest) tail =
          x ++ (phImg ++ (ds ++ (str ")" ++ renderMid rest tail))) := by
        simp [renderMid, renderOcc, List.append_assoc]
      rw [hshape] at hx
      unfold rewriteImgSyntax
      rw [hshape,
        replaceScan_append_free phImg (str ")") canonicalFig x _ hx,
        replaceScan_occurrence phImg (str ")") (renderMid rest tail) ds canonicalFig hne
          hdig ⟨')', [], rfl, by decide⟩,
        show replaceScan phImg (str ")") canonicalFig (renderMid rest tail) =
          renderRw rest tail from ih tail (fun q hq => hds q (by simp [hq])) hrest]
      simp [renderRw, dsOfOcc]

/-- C5: step 1 of post-processing rewrites every synthetic placeholder
occurrence — arbitrarily many, in the attribute form
`src="IMAGE_PATH_PLACEHOLDER_n"` as well as in the markdown-image form
`![](IMAGE_PATH_PLACEHOLDER_n)`, interleaved in one document — to
`![](images/figure_n.png)` with the same number n, the contexts between
occurrences being free of further pattern matches; and extracting the
one-image scenario text yields markdown with exactly one occurrence of
`images/figure_1.png` and zero occurrences of the placeholder token. -/
theorem placeholder_rewrite (segs : List (Str × PhOcc)) (tail : Str)
    (hds : ∀ p ∈ segs, dsOfOcc p.2 ≠ [] ∧ ∀ c ∈ dsOfOcc p.2, c.isDigit = true)
    (hattr : attrFree segs tail) (himg : imgFree segs tail) :
    rewritePlaceholders (renderDoc segs tail) = renderRw segs tail ∧
    postProcess (str "Intro ![](IMAGE_PATH_PLACEHOLDER_1) end.") =
      str "Intro ![](images/figure_1.png) end." ∧
    countOcc (str "images/figure_1.png") (str "Intro ![](images/figure_1.png) end.") = 1 ∧
    countOcc (str "IMAGE_PATH_PLACEHOLDER") (str "Intro ![](images/figure_1.png) end.") = 0 := by
  refine ⟨?_, ?_, by decide, by decide⟩
  · rw [rewritePlaceholders,
      show rewriteAttr (renderDoc segs tail) = renderMid segs tail from
        rewriteAttr_doc segs tail hds hattr]
    exact rewriteImg_mid segs tail hds himg
  · have hin : str "Intro ![](IMAGE_PATH_PLACEHOLDER_1) end." =
        renderDoc [(str "Intro ", PhOcc.imgOcc (str "1"))] (str " end.") := by decide
    have hsc : rewritePlaceholders
        (renderDoc [(str "Intro ", PhOcc.imgOcc (str "1"))] (str " end.")) =
        renderRw [(str "Intro ", PhOcc.imgOcc (str "1"))] (str " end.") := by
      rw [rewritePlaceholders,
        show rewriteAttr (renderDoc [(str "Intro ", PhOcc.imgOcc (str "1"))] (str " end.")) =
            renderMid [(str "Intro ", PhOcc.imgOcc (str "1"))] (str " end.") from
          rewriteAttr_doc _ _ (by decide) ⟨by decide, by unfold attrFree; decide⟩]
      exact rewriteImg_mid _ _ (by decide) ⟨by decide, by unfold imgFree; decide⟩
    rw [postProcess, hin, hsc]
    decide

/-- Witness for `placeholder_rewrite` at a concrete document holding two
placeholder occurrences, one of each form, with different numbers. -/
theorem placeholder_rewrite_witness :
    rewritePlaceholders
      (renderDoc [(str "A ", PhOcc.attrOcc (str "1")), (str " m ", PhOcc.imgOcc (str "23"))]
        (str " B")) =
      renderRw [(str "A ", PhOcc.attrOcc (str "1")), (str " m ", PhOcc.imgOcc (str "23"))]
        (str " B") ∧
    postProcess (str "Intro ![](IMAGE_PATH_PLACEHOLDER_1) end.") =
      str "Intro ![](images/figure_1.png) end." ∧
    countOcc (str "images/figure_1.png") (str "Intro ![](images/figure_1.png) end.") = 1 ∧
    countOcc (str "IMAGE_PATH_PLACEHOLDER") (str "Intro ![](images/figure_1.png) end.") = 0 :=
  placeholder_rewrite
    [(str "A ", PhOcc.attrOcc (str "1")), (str " m ", PhOcc.imgOcc (str "23"))] (str " B")
    (by decide) ⟨by decide, by decide, by unfold attrFree; decide⟩
    ⟨by decide, by decide, by unfold imgFree; decide⟩

/-! The full extraction call and its error path. -/

/-- A thrown value: a JS `Error` carries a message, other throwables do not. -/
structure ExtErr where
  message : Option Str
deriving DecidableEq

/-- `error instanceof Error ? error.message : 'Unknown error'`. -/
def errText (e : ExtErr) : Str :=
  match e.message with
  | some m => m
  | none => str "Unknown error"

/-- `convertDocxToMd` over the outcome of the external binary decoder: on
success the raw markdown is post-processed; on failure the error is
logged at error level and re-raised unchanged. -/
def convertDocxToMdModel (decodeResult : Except ExtErr Str) :
    Except ExtErr Str × List LogEntry :=
  let l0 : List LogEntry := [⟨str "Analyzing Word structure and identifying assets...", .info⟩]
  match decodeResult with
  | .ok raw =>
    (.ok (postProcess raw),
     l0 ++ [⟨str "Refining document structure...", .info⟩,
       ⟨str "Base Markdown generated successfully.", .success⟩])
  | .error e =>
    (.error e, l0 ++ [⟨str "Extraction failed: " ++ errText e, .error⟩])

/-- C9: when decoding fails, extraction returns the very same error —
never a markdown string, partial or otherwise — and logs exactly one
error-level entry. -/
theorem decode_failure_fatal (e : ExtErr) :
    (convertDocxToMdModel (.error e)).1 = .error e ∧
    (∀ md, (convertDocxToMdModel (.error e)).1 ≠ .ok md) ∧
    ((convertDocxToMdModel (.error e)).2.filter (fun l => l.level == .error) =
      [⟨str "Extraction failed: " ++ errText e, .error⟩]) := by
  refine ⟨rfl, fun md h => by simp [convertDocxToMdModel] at h, ?_⟩
  rfl
